import Mathlib

/-!
Verification development for the chord-chart editor (`src/main.rs`).

The Rust source is shallowly embedded: pure functions become Lean
functions, `BTreeMap<usize, Chord>` becomes a key-sorted association
list, stateful methods on `State` become explicit state-passing
functions, and code paths that can panic (out-of-range indexing,
`usize` underflow) return `Option`, with `none` modelling the panic.
Strings are modelled as `List Char` (the `chars()` view used by the
Rust code).
-/

set_option maxHeartbeats 1000000

/-! ## Chord notation engine: data types (from `enum Note/Accidental/Quality`, `struct Chord`) -/

inductive Note where
  | A | B | C | D | E | F | G
deriving DecidableEq

inductive Accidental where
  | None | Sharp | Flat
deriving DecidableEq

inductive Quality where
  | Maj | Min | Dom7 | Maj7 | Min7 | Dim | Dim7 | HalfDim
  | Aug | Dom9 | Maj9 | Min9 | Flat9 | Sharp9 | Maj11 | Sharp11
  | Dom13 | Maj13 | Flat13 | Sus | Sus4 | Sus2 | Maj6 | Min6
deriving DecidableEq

structure Chord where
  note : Note
  accidental : Accidental
  quality : Quality
  over : Option Note
  special : Bool
  question : Bool
deriving DecidableEq

/-! ## Formatting (from `impl Display for Note/Accidental/Quality/Chord`) -/

def noteChar : Note → Char
  | .A => 'A' | .B => 'B' | .C => 'C' | .D => 'D' | .E => 'E' | .F => 'F' | .G => 'G'

def accidentalStr : Accidental → List Char
  | .None => []
  | .Sharp => ['#']
  | .Flat => ['b']

def qualityStr (q : Quality) : List Char :=
  (match q with
  | .Maj => "" | .Min => "-" | .Dom7 => "7" | .Maj7 => "^" | .Min7 => "-7"
  | .Dim => "o" | .Dim7 => "o7" | .HalfDim => "m7b5" | .Aug => "+"
  | .Dom9 => "9" | .Maj9 => "^9" | .Min9 => "-9" | .Flat9 => "b9" | .Sharp9 => "#9"
  | .Maj11 => "^11" | .Sharp11 => "#11" | .Dom13 => "13" | .Maj13 => "^13"
  | .Flat13 => "b13" | .Sus => "sus" | .Sus4 => "sus4" | .Sus2 => "sus2"
  | .Maj6 => "6" | .Min6 => "m6" : String).toList

def overStr : Option Note → List Char
  | some n => ['/', noteChar n]
  | none => []

def specialStr (b : Bool) : List Char := if b then ['!'] else []

def questionStr (b : Bool) : List Char := if b then ['?'] else []

def formatChord (c : Chord) : List Char :=
  [noteChar c.note] ++ accidentalStr c.accidental ++ qualityStr c.quality
    ++ overStr c.over ++ specialStr c.special ++ questionStr c.question

/-! ## Parsing (from `Chord::parse`)

The Rust code runs the regex
`([CDEFGABcdefgab])([#b])?((M|-|\+|\^|m|o|aug|dim|sus|add|hd)?(6|7|9|11|13|5|b5)?)(/[CDEFGABcdefgab])?(!)?(\?)?`
with `Regex::captures` (leftmost-first match semantics, unanchored) and
then looks the combined quality token (group 3) up in a closed table.
Because every element after the note class is optional, the regex match
starts at the first note-class character of the input and each optional
group greedily consumes its token if it is present at the current
position (alternatives tried left to right); trailing unmatched input
is ignored.  The embedding below reproduces exactly that behaviour. -/

def isNoteChar (c : Char) : Bool :=
  ['C', 'D', 'E', 'F', 'G', 'A', 'B', 'c', 'd', 'e', 'f', 'g', 'a', 'b'].contains c

def noteOfChar? (c : Char) : Option Note :=
  match c.toUpper with
  | 'A' => some .A | 'B' => some .B | 'C' => some .C | 'D' => some .D
  | 'E' => some .E | 'F' => some .F | 'G' => some .G
  | _ => none

/-- Strip a literal token from the front of the input, or fail. -/
def stripTok : List Char → List Char → Option (List Char)
  | [], cs => some cs
  | _ :: _, [] => none
  | t :: ts, c :: cs => if c = t then stripTok ts cs else none

/-- Match an optional alternation `(t1|t2|...)?`: the first alternative that
is a prefix of the input is consumed (leftmost-first preference); if none
matches, the group matches the empty string. -/
def matchAlt : List (List Char) → List Char → List Char × List Char
  | [], cs => ([], cs)
  | t :: ts, cs =>
    match stripTok t cs with
    | some r => (t, r)
    | none => matchAlt ts cs

def qualAlts : List (List Char) :=
  [['M'], ['-'], ['+'], ['^'], ['m'], ['o'],
   ['a', 'u', 'g'], ['d', 'i', 'm'], ['s', 'u', 's'], ['a', 'd', 'd'], ['h', 'd']]

def extAlts : List (List Char) :=
  [['6'], ['7'], ['9'], ['1', '1'], ['1', '3'], ['5'], ['b', '5']]

/-- Group 2 of the regex: `([#b])?`. -/
def stripAccidental : List Char → Accidental × List Char
  | '#' :: r => (.Sharp, r)
  | 'b' :: r => (.Flat, r)
  | cs => (.None, cs)

/-- Group 3 of the regex: combined quality and extension token. -/
def group34 (cs : List Char) : List Char × List Char :=
  let q := matchAlt qualAlts cs
  let e := matchAlt extAlts q.2
  (q.1 ++ e.1, e.2)

/-- The closed quality token table from `Chord::parse`. -/
def qualityOfToken? (t : List Char) : Option Quality :=
  if t = [] then some .Maj
  else if t = ['-'] ∨ t = ['m'] then some .Min
  else if t = ['7'] then some .Dom7
  else if t = ['-', '7'] ∨ t = ['m', '7'] then some .Min7
  else if t = ['^'] ∨ t = ['^', '7'] ∨ t = ['M', '7'] then some .Maj7
  else if t = ['d', 'i', 'm'] ∨ t = ['o'] then some .Dim
  else if t = ['d', 'i', 'm', '7'] ∨ t = ['o', '7'] then some .Dim7
  else if t = ['h', 'd'] then some .HalfDim
  else if t = ['6'] then some .Maj6
  else if t = ['m', '6'] ∨ t = ['-', '6'] then some .Min6
  else none

/-- Group 6 of the regex: `(/[CDEFGABcdefgab])?`.  When the group matches,
`Note::try_from` on the class character cannot fail, so no failure path is
needed here. -/
def overStep : List Char → Option Note × List Char
  | '/' :: d :: r => if isNoteChar d then (noteOfChar? d, r) else (none, '/' :: d :: r)
  | cs => (none, cs)

/-- Groups 7 and 8 of the regex: an optional literal flag character. -/
def flagStep (f : Char) : List Char → Bool × List Char
  | [] => (false, [])
  | c :: r => if c = f then (true, r) else (false, c :: r)

/-- Parse the chord whose regex match starts at note character `c`
followed by `cs` (the body of `Chord::parse` after a successful
`captures`).  The `noteOfChar?` failure branch models the
`Note::try_from(...).unwrap()`, which cannot fire because `c` is a note
class character. -/
def parseFrom (c : Char) (cs : List Char) : Option Chord :=
  match noteOfChar? c with
  | none => none
  | some note =>
    let a := stripAccidental cs
    let q := group34 a.2
    match qualityOfToken? q.1 with
    | none => none
    | some quality =>
      let o := overStep q.2
      let sp := flagStep '!' o.2
      let qu := flagStep '?' sp.2
      some ⟨note, a.1, quality, o.1, sp.1, qu.1⟩

/-- Leftmost match position: the regex match starts at the first
note-class character of the input (everything after group 1 is optional). -/
def firstNote : List Char → Option (Char × List Char)
  | [] => none
  | c :: cs => if isNoteChar c then some (c, cs) else firstNote cs

/-- Model of `Chord::parse`: `none` models `Err(())`. -/
def parseChord (cs : List Char) : Option Chord :=
  match firstNote cs with
  | none => none
  | some p => parseFrom p.1 p.2

/-! ## Round-trip lemmas (claim C1)

Each stage of the embedded regex consumes exactly the piece of the
formatted string it corresponds to, provided the following input starts
with one of the characters a later stage can produce (`/`, `!`, `?`) or
is empty. -/

def allNotes : List Note := [.A, .B, .C, .D, .E, .F, .G]

/-- The qualities that have a parser input token in `Chord::parse`. -/
def parserQualities : List Quality :=
  [.Maj, .Min, .Dom7, .Min7, .Maj7, .Dim, .Dim7, .HalfDim, .Maj6, .Min6]

/-- The parser-supported qualities whose format string round-trips
(`HalfDim` formats as `m7b5`, which the parser reads back as `Min7`). -/
def roundtripQualities : List Quality :=
  [.Maj, .Min, .Dom7, .Min7, .Maj7, .Dim, .Dim7, .Maj6, .Min6]

/-- The input left after the quality token in a formatted chord starts
with `/`, `!` or `?`, or is empty. -/
def tailSafe (t : List Char) : Prop :=
  t = [] ∨ (∃ t2, t = '/' :: t2) ∨ (∃ t2, t = '!' :: t2) ∨ (∃ t2, t = '?' :: t2)

theorem isNoteChar_noteChar (n : Note) : isNoteChar (noteChar n) = true := by
  cases n <;> rfl

theorem noteOfChar?_noteChar (n : Note) : noteOfChar? (noteChar n) = some n := by
  cases n <;> rfl

theorem firstNote_cons_note (n : Note) (r : List Char) :
    firstNote (noteChar n :: r) = some (noteChar n, r) := by
  simp [firstNote, isNoteChar_noteChar]

theorem stripAccidental_format (a : Accidental) (q : Quality) (t : List Char)
    (hq : q ∈ roundtripQualities) (ht : tailSafe t) :
    stripAccidental (accidentalStr a ++ (qualityStr q ++ t)) = (a, qualityStr q ++ t) := by
  simp only [roundtripQualities, List.mem_cons, List.not_mem_nil, or_false] at hq
  cases a <;>
    rcases hq with rfl | rfl | rfl | rfl | rfl | rfl | rfl | rfl | rfl <;>
      first
      | rfl
      | (rcases ht with rfl | ⟨t2, rfl⟩ | ⟨t2, rfl⟩ | ⟨t2, rfl⟩ <;> rfl)

theorem group34_format (q : Quality) (t : List Char)
    (hq : q ∈ roundtripQualities) (ht : tailSafe t) :
    group34 (qualityStr q ++ t) = (qualityStr q, t) := by
  simp only [roundtripQualities, List.mem_cons, List.not_mem_nil, or_false] at hq
  rcases hq with rfl | rfl | rfl | rfl | rfl | rfl | rfl | rfl | rfl <;>
    first
    | rfl
    | (rcases ht with rfl | ⟨t2, rfl⟩ | ⟨t2, rfl⟩ | ⟨t2, rfl⟩ <;> rfl)

theorem qualityOfToken?_format (q : Quality) (hq : q ∈ roundtripQualities) :
    qualityOfToken? (qualityStr q) = some q := by
  simp only [roundtripQualities, List.mem_cons, List.not_mem_nil, or_false] at hq
  rcases hq with rfl | rfl | rfl | rfl | rfl | rfl | rfl | rfl | rfl <;> rfl

/-- The input left after the over note starts with `!` or `?`, or is empty. -/
def flagsSafe (t : List Char) : Prop :=
  t = [] ∨ (∃ t2, t = '!' :: t2) ∨ (∃ t2, t = '?' :: t2)

theorem overStep_format (o : Option Note) (t : List Char) (ht : flagsSafe t) :
    overStep (overStr o ++ t) = (o, t) := by
  cases o with
  | some n =>
    show overStep ('/' :: noteChar n :: t) = _
    simp [overStep, isNoteChar_noteChar, noteOfChar?_noteChar]
  | none =>
    rcases ht with rfl | ⟨t2, rfl⟩ | ⟨t2, rfl⟩ <;> rfl

theorem flagStep_special (sp qu : Bool) :
    flagStep '!' (specialStr sp ++ questionStr qu) = (sp, questionStr qu) := by
  cases sp <;> cases qu <;> rfl

theorem flagStep_question (qu : Bool) :
    flagStep '?' (questionStr qu) = (qu, []) := by
  cases qu <;> rfl

theorem flagsSafe_format (sp qu : Bool) :
    flagsSafe (specialStr sp ++ questionStr qu) := by
  cases sp <;> cases qu <;> simp [flagsSafe, specialStr, questionStr]

theorem tailSafe_format (o : Option Note) (sp qu : Bool) :
    tailSafe (overStr o ++ (specialStr sp ++ questionStr qu)) := by
  cases o <;> cases sp <;> cases qu <;> simp [tailSafe, overStr, specialStr, questionStr]

/-- C1 (amended): for every chord whose quality is one of the nine
parser-supported qualities other than `HalfDim` (Maj, Min, Dom7, Min7,
Maj7, Dim, Dim7, Maj6, Min6), with any note, any accidental, any
optional bass note and any flags, parsing the formatted chord yields
the original chord: `parse(format(chord)) = chord`.  (`HalfDim` has the
parser token `hd` but formats as `m7b5`, which the parser reads back as
`Min7`, so it does not round-trip.) -/
theorem C1_roundtrip (c : Chord) (hq : c.quality ∈ roundtripQualities) :
    parseChord (formatChord c) = some c := by
  obtain ⟨n, a, q, o, sp, qu⟩ := c
  simp only at hq
  have hfmt : formatChord ⟨n, a, q, o, sp, qu⟩
      = noteChar n :: (accidentalStr a ++ (qualityStr q
          ++ (overStr o ++ (specialStr sp ++ questionStr qu)))) := by
    simp [formatChord, List.append_assoc]
  rw [hfmt]
  rw [parseChord, firstNote_cons_note]
  simp only [parseFrom, noteOfChar?_noteChar,
    stripAccidental_format a q _ hq (tailSafe_format o sp qu),
    group34_format q _ hq (tailSafe_format o sp qu),
    qualityOfToken?_format q hq,
    overStep_format o _ (flagsSafe_format sp qu),
    flagStep_special sp qu, flagStep_question qu]

/-- C1 witness: the round-trip theorem applied to F#-7. -/
theorem C1_roundtrip_witness :
    (Chord.mk .F .Sharp .Min7 none false false).quality ∈ roundtripQualities ∧
      parseChord (formatChord ⟨.F, .Sharp, .Min7, none, false, false⟩)
        = some ⟨.F, .Sharp, .Min7, none, false, false⟩ :=
  ⟨by decide, C1_roundtrip ⟨.F, .Sharp, .Min7, none, false, false⟩ (by decide)⟩

/-- C1 counterexample: `HalfDim` has a parser input token (`hd`), so the
claim as stated covers it, but its formatted string `Cm7b5` parses back
as C minor seventh, not C half-diminished. -/
theorem C1_counterexample :
    (Chord.mk .C .None .HalfDim none false false).quality ∈ parserQualities ∧
      formatChord ⟨.C, .None, .HalfDim, none, false, false⟩ = "Cm7b5".toList ∧
      parseChord (formatChord ⟨.C, .None, .HalfDim, none, false, false⟩)
        = some ⟨.C, .None, .Min7, none, false, false⟩ ∧
      parseChord (formatChord ⟨.C, .None, .HalfDim, none, false, false⟩)
        ≠ some ⟨.C, .None, .HalfDim, none, false, false⟩ := by
  refine ⟨by decide, by decide, by decide, by decide⟩

/-! ## Parse failure characterization (claim C2) -/

theorem firstNote_eq_none_iff (cs : List Char) :
    firstNote cs = none ↔ ∀ c ∈ cs, isNoteChar c = false := by
  induction cs with
  | nil => simp [firstNote]
  | cons c cs ih =>
    by_cases h : isNoteChar c = true
    · simp [firstNote, h]
    · simp only [Bool.not_eq_true] at h
      simp [firstNote, h, ih]

theorem firstNote_isNote (cs : List Char) (p : Char × List Char)
    (h : firstNote cs = some p) : isNoteChar p.1 = true := by
  induction cs with
  | nil => simp [firstNote] at h
  | cons c cs ih =>
    by_cases hc : isNoteChar c = true
    · simp [firstNote, hc] at h
      simp [← h, hc]
    · simp only [Bool.not_eq_true] at hc
      simp [firstNote, hc] at h
      exact ih h

theorem noteOfChar?_isSome_of_isNoteChar (c : Char) (h : isNoteChar c = true) :
    (noteOfChar? c).isSome = true := by
  simp [isNoteChar] at h
  rcases h with rfl | rfl | rfl | rfl | rfl | rfl | rfl | rfl | rfl | rfl | rfl | rfl | rfl | rfl
    <;> rfl

theorem parseFrom_eq_none_iff (c : Char) (cs : List Char) (hc : isNoteChar c = true) :
    parseFrom c cs = none ↔
      qualityOfToken? (group34 (stripAccidental cs).2).1 = none := by
  obtain ⟨note, hnote⟩ := Option.isSome_iff_exists.mp (noteOfChar?_isSome_of_isNoteChar c hc)
  rw [parseFrom, hnote]
  cases hq : qualityOfToken? (group34 (stripAccidental cs).2).1 <;> simp [hq]

/-- C2 (amended): `Chord::parse` fails exactly when the input contains
no note letter anywhere (the unanchored regex matches starting at the
first `A`-`G`/`a`-`g` character, so characters before it are skipped,
not rejected), or the combined quality token matched at that position
is outside the closed table.  All other stages (accidental, bass,
flags) are optional and cannot fail, and input after the match is
ignored. -/
theorem C2_parse_failure_iff (cs : List Char) :
    parseChord cs = none ↔
      ((∀ c ∈ cs, isNoteChar c = false) ∨
        ∃ p, firstNote cs = some p ∧
          qualityOfToken? (group34 (stripAccidental p.2).2).1 = none) := by
  cases hfn : firstNote cs with
  | none =>
    rw [parseChord, hfn]
    simp only [true_iff]
    exact Or.inl ((firstNote_eq_none_iff cs).mp hfn)
  | some p =>
    rw [parseChord, hfn]
    constructor
    · intro h
      exact Or.inr ⟨p, rfl, (parseFrom_eq_none_iff p.1 p.2 (firstNote_isNote cs p hfn)).mp h⟩
    · rintro (hall | ⟨p2, hp2, hq⟩)
      · rw [(firstNote_eq_none_iff cs).mpr hall] at hfn
        exact absurd hfn (by simp)
      · obtain rfl : p = p2 := Option.some.inj hp2
        exact (parseFrom_eq_none_iff p.1 p.2 (firstNote_isNote cs p hfn)).mpr hq

/-- C2 witness: the characterization applied to the rejected input `Caug`. -/
theorem C2_parse_failure_iff_witness :
    parseChord "Caug".toList = none ↔
      ((∀ c ∈ "Caug".toList, isNoteChar c = false) ∨
        ∃ p, firstNote "Caug".toList = some p ∧
          qualityOfToken? (group34 (stripAccidental p.2).2).1 = none) :=
  C2_parse_failure_iff "Caug".toList

/-- C2 counterexample: the input `!C` does not start with a note letter,
yet `Chord::parse` succeeds (the regex is unanchored and matches at the
`C`), refuting "for any input whose first character is not one of
A-G/a-g, parse fails". -/
theorem C2_counterexample :
    "!C".toList.head? = some '!' ∧ isNoteChar '!' = false ∧
      parseChord "!C".toList = some ⟨.C, .None, .Maj, none, false, false⟩ := by
  refine ⟨by decide, by decide, by decide⟩

/-! ## Sorted association list model of `BTreeMap<usize, Chord>`

A `BTreeMap` is modelled as a list of key-value pairs with strictly
increasing keys (`SortedK`); iteration order is key-ascending list
order, matching `BTreeMap` iteration. -/

def btLookup {α : Type} (k : Nat) : List (Nat × α) → Option α
  | [] => none
  | p :: t => if p.1 = k then some p.2 else btLookup k t

def btInsert {α : Type} (k : Nat) (v : α) : List (Nat × α) → List (Nat × α)
  | [] => [(k, v)]
  | p :: t =>
    if k < p.1 then (k, v) :: p :: t
    else if k = p.1 then (k, v) :: t
    else p :: btInsert k v t

def btRemove {α : Type} (k : Nat) : List (Nat × α) → List (Nat × α)
  | [] => []
  | p :: t => if p.1 = k then t else p :: btRemove k t

def btKeys {α : Type} (l : List (Nat × α)) : List Nat := l.map Prod.fst

/-- Representation invariant of the `BTreeMap` model: keys strictly
increase along the list. -/
def SortedK {α : Type} (l : List (Nat × α)) : Prop :=
  l.Pairwise (fun p q => p.1 < q.1)

instance {α : Type} (l : List (Nat × α)) : Decidable (SortedK l) :=
  List.instDecidablePairwise l

/-! ## Bar (from `struct Bar` and its `impl`) -/

structure Bar where
  beats : Nat
  subdivision : Nat
  chords : List (Nat × Chord)
deriving DecidableEq

/-- Model of `Bar::default()`. -/
def Bar.default : Bar := ⟨4, 4, []⟩

/-- Model of `Bar::new(beats, subdivision)`. -/
def Bar.new (beats subdivision : Nat) : Bar := ⟨beats, subdivision, []⟩

/-- One iteration of the loop in `try_reduce_subdivision`: look the key
up in the evolving map, remove it, and re-insert the chord at `k / 2`.
The `none` fallback models the `.unwrap()`, which never fires on a
sorted map (proved below via the loop characterization). -/
def reduceStep (m : List (Nat × Chord)) (k : Nat) : List (Nat × Chord) :=
  match btLookup k m with
  | some c => btInsert (k / 2) c (btRemove k m)
  | none => m

/-- Model of `Bar::try_reduce_subdivision`: returns the updated bar and the
`bool` result (`false` leaves the bar unchanged). -/
def tryReduceSubdivision (b : Bar) : Bar × Bool :=
  if b.subdivision = 1 then (b, false)
  else
    let nw := b.subdivision / 2
    if b.chords.length > nw then (b, false)
    else (⟨b.beats, nw, (btKeys b.chords).foldl reduceStep b.chords⟩, true)

/-- Model of `Bar::double_subdivision`: no-op at subdivision ≥ 16, otherwise
doubles the subdivision and rebuilds the map with every key doubled
(clear + insert loop in key-ascending order). -/
def doubleSubdivision (b : Bar) : Bar :=
  if b.subdivision ≥ 16 then b
  else ⟨b.beats, b.subdivision * 2, b.chords.foldl (fun a p => btInsert (p.1 * 2) p.2 a) []⟩

/-! ## Association list lemmas -/

theorem btLookup_insert {α : Type} (k j : Nat) (v : α) (m : List (Nat × α)) :
    btLookup j (btInsert k v m) = if k = j then some v else btLookup j m := by
  induction m with
  | nil => simp [btInsert, btLookup]
  | cons p t ih =>
    rcases lt_trichotomy k p.1 with h1 | h1 | h1
    · simp only [btInsert, if_pos h1, btLookup]
    · have hnl : ¬ k < p.1 := by omega
      simp only [btInsert, if_neg hnl, if_pos h1, btLookup]
      by_cases hj : k = j
      · simp [hj]
      · have hp : p.1 ≠ j := by omega
        simp [hj, hp]
    · have hnl : ¬ k < p.1 := by omega
      have hne : ¬ k = p.1 := by omega
      simp only [btInsert, if_neg hnl, if_neg hne, btLookup, ih]
      by_cases hj : p.1 = j
      · have : ¬ k = j := by omega
        simp [hj, this]
      · simp [hj]

theorem btLookup_append_left {α : Type} (k : Nat) (c : α)
    (acc pend : List (Nat × α)) (h : ∀ a ∈ acc, a.1 ≠ k) :
    btLookup k (acc ++ (k, c) :: pend) = some c := by
  induction acc with
  | nil => simp [btLookup]
  | cons a t ih =>
    have ha : a.1 ≠ k := h a (by simp)
    simp only [List.cons_append, btLookup, if_neg ha]
    exact ih (fun x hx => h x (by simp [hx]))

theorem btRemove_append_mid {α : Type} (k : Nat) (c : α)
    (acc pend : List (Nat × α)) (h : ∀ a ∈ acc, a.1 ≠ k) :
    btRemove k (acc ++ (k, c) :: pend) = acc ++ pend := by
  induction acc with
  | nil => simp [btRemove]
  | cons a t ih =>
    have ha : a.1 ≠ k := h a (by simp)
    simp only [List.cons_append, btRemove, if_neg ha, List.append_eq]
    rw [ih (fun x hx => h x (by simp [hx]))]

theorem btInsert_append_left {α : Type} (k : Nat) (v : α)
    (acc pend : List (Nat × α)) (h : ∀ p ∈ pend, k < p.1) :
    btInsert k v (acc ++ pend) = btInsert k v acc ++ pend := by
  induction acc with
  | nil =>
    cases pend with
    | nil => simp [btInsert]
    | cons p t =>
      have : k < p.1 := h p (by simp)
      simp [btInsert, this]
  | cons a t ih =>
    by_cases h1 : k < a.1
    · simp [btInsert, h1]
    · by_cases h2 : k = a.1
      · simp [btInsert, h1, h2]
      · simp [btInsert, h1, h2, ih]

theorem btInsert_append_last {α : Type} (k : Nat) (v : α)
    (acc : List (Nat × α)) (h : ∀ a ∈ acc, a.1 < k) :
    btInsert k v acc = acc ++ [(k, v)] := by
  induction acc with
  | nil => simp [btInsert]
  | cons a t ih =>
    have ha : a.1 < k := h a (by simp)
    have h1 : ¬ k < a.1 := by omega
    have h2 : ¬ k = a.1 := by omega
    simp only [btInsert, if_neg h1, if_neg h2, List.cons_append]
    rw [ih (fun x hx => h x (by simp [hx]))]

theorem btKeys_insert_mem {α : Type} (k : Nat) (v : α) (m : List (Nat × α)) :
    ∀ p ∈ btInsert k v m, p.1 = k ∨ p ∈ m := by
  induction m with
  | nil => simp [btInsert]
  | cons a t ih =>
    intro p hp
    by_cases h1 : k < a.1
    · simp only [btInsert, if_pos h1, List.mem_cons] at hp
      rcases hp with rfl | rfl | hp <;> simp [*]
    · by_cases h2 : k = a.1
      · simp only [btInsert, if_neg h1, if_pos h2, List.mem_cons] at hp
        rcases hp with rfl | hp <;> simp [*]
      · simp only [btInsert, if_neg h1, if_neg h2, List.mem_cons] at hp
        rcases hp with rfl | hp
        · simp
        · rcases ih p hp with h | h <;> simp [*]

theorem sortedK_insert {α : Type} (k : Nat) (v : α) (m : List (Nat × α))
    (h : SortedK m) : SortedK (btInsert k v m) := by
  induction m with
  | nil => simp [btInsert, SortedK]
  | cons a t ih =>
    simp only [SortedK, List.pairwise_cons] at h
    obtain ⟨ha, ht⟩ := h
    by_cases h1 : k < a.1
    · simp only [btInsert, if_pos h1, SortedK, List.pairwise_cons]
      refine ⟨?_, ha, ht⟩
      intro p hp
      rcases List.mem_cons.mp hp with rfl | hp
      · exact h1
      · exact lt_trans h1 (ha p hp)
    · by_cases h2 : k = a.1
      · subst h2
        have hins : btInsert a.1 v (a :: t) = (a.1, v) :: t := by
          simp [btInsert, h1]
        rw [hins]
        simp only [SortedK, List.pairwise_cons]
        exact ⟨ha, ht⟩
      · simp only [btInsert, if_neg h1, if_neg h2, SortedK, List.pairwise_cons]
        refine ⟨?_, ih ht⟩
        intro p hp
        rcases btKeys_insert_mem k v t p hp with hk | hm
        · rw [hk]; omega
        · exact ha p hm

theorem btInsert_length {α : Type} (k : Nat) (v : α) (m : List (Nat × α)) :
    (btInsert k v m).length ≤ m.length + 1 := by
  induction m with
  | nil => simp [btInsert]
  | cons a t ih =>
    by_cases h1 : k < a.1
    · simp [btInsert, h1]
    · by_cases h2 : k = a.1
      · simp [btInsert, h1, h2]
      · simp only [btInsert, if_neg h1, if_neg h2, List.length_cons]
        omega

theorem btLookup_eq_none_of_lt {α : Type} (x : Nat) (t : List (Nat × α))
    (h : ∀ q ∈ t, x < q.1) : btLookup x t = none := by
  induction t with
  | nil => rfl
  | cons a s ih =>
    have : a.1 ≠ x := by have := h a (by simp); omega
    simp only [btLookup, if_neg this]
    exact ih (fun q hq => h q (by simp [hq]))

/-! ## Characterization of the `try_reduce_subdivision` loop -/

/-- The remove-then-insert loop over the (cloned) key list, acting on
the evolving map, equals a plain left fold that inserts each pair at
its halved key into an accumulator: processed pairs always sit strictly
left of the unprocessed suffix. -/
theorem reduce_loop_eq (pend : List (Nat × Chord)) :
    ∀ acc, SortedK (acc ++ pend) →
      List.foldl reduceStep (acc ++ pend) (btKeys pend)
        = List.foldl (fun a p => btInsert (p.1 / 2) p.2 a) acc pend := by
  induction pend with
  | nil => intro acc h; simp [btKeys]
  | cons p t ih =>
    intro acc h
    rw [SortedK, List.pairwise_append] at h
    obtain ⟨hacc, hpt, hcross⟩ := h
    rw [List.pairwise_cons] at hpt
    obtain ⟨hp, ht⟩ := hpt
    have hkeys : ∀ a ∈ acc, a.1 ≠ p.1 := fun a ha => by
      have := hcross a ha p (by simp)
      omega
    have hstep : reduceStep (acc ++ p :: t) p.1 = btInsert (p.1 / 2) p.2 acc ++ t := by
      rw [reduceStep, btLookup_append_left p.1 p.2 acc t hkeys]
      show btInsert (p.1 / 2) p.2 (btRemove p.1 (acc ++ p :: t)) = _
      rw [btRemove_append_mid p.1 p.2 acc t hkeys,
        btInsert_append_left (p.1 / 2) p.2 acc t (fun q hq => by have := hp q hq; omega)]
    have hsorted : SortedK (btInsert (p.1 / 2) p.2 acc ++ t) := by
      rw [SortedK, List.pairwise_append]
      refine ⟨sortedK_insert _ _ _ hacc, ht, ?_⟩
      intro a ha b hb
      rcases btKeys_insert_mem (p.1 / 2) p.2 acc a ha with hk | hm
      · have := hp b hb
        omega
      · exact hcross a hm b (by simp [hb])
    simp only [btKeys, List.map_cons, List.foldl_cons]
    rw [hstep]
    have := ih (btInsert (p.1 / 2) p.2 acc) hsorted
    rw [btKeys] at this
    exact this

/-- Looking a key up in the halved-insert fold threads through as a
last-write fold over the pair list. -/
theorem btLookup_insHalf_fold {α : Type} (j : Nat) (l : List (Nat × α)) :
    ∀ acc, btLookup j (List.foldl (fun a p => btInsert (p.1 / 2) p.2 a) acc l)
      = List.foldl (fun r p => if p.1 / 2 = j then some p.2 else r) (btLookup j acc) l := by
  induction l with
  | nil => intro acc; rfl
  | cons p t ih =>
    intro acc
    simp only [List.foldl_cons]
    rw [ih]
    congr 1
    rw [btLookup_insert]

theorem lastHalf_fold_or {α : Type} (j : Nat) (l : List (Nat × α)) :
    ∀ r, List.foldl (fun r p => if p.1 / 2 = j then some p.2 else r) r l
      = (List.foldl (fun r p => if p.1 / 2 = j then some p.2 else r) none l).or r := by
  induction l with
  | nil => intro r; simp
  | cons p t ih =>
    intro r
    simp only [List.foldl_cons]
    rw [ih, ih (if p.1 / 2 = j then some p.2 else none)]
    by_cases h : p.1 / 2 = j <;>
      cases hF : List.foldl (fun r p => if p.1 / 2 = j then some p.2 else r) none t <;>
        simp [h, hF]

/-- On a sorted pair list, the last pair whose halved key is `j` is the
one at key `2j+1` if present, else the one at key `2j`: the larger
original key wins a merge. -/
theorem lastHalf_eq_or_lookup {α : Type} (j : Nat) (l : List (Nat × α)) (h : SortedK l) :
    List.foldl (fun r p => if p.1 / 2 = j then some p.2 else r) none l
      = (btLookup (2 * j + 1) l).or (btLookup (2 * j) l) := by
  induction l with
  | nil => rfl
  | cons p t ih =>
    rw [SortedK, List.pairwise_cons] at h
    obtain ⟨hp, ht⟩ := h
    simp only [List.foldl_cons]
    rw [lastHalf_fold_or, ih ht]
    by_cases h1 : p.1 = 2 * j
    · have hd : p.1 / 2 = j := by omega
      have hne : p.1 ≠ 2 * j + 1 := by omega
      have h2j : btLookup (2 * j) t = none :=
        btLookup_eq_none_of_lt _ t (fun q hq => by have := hp q hq; omega)
      simp only [btLookup, if_neg hne, if_pos h1, hd, if_pos rfl, h2j]
      cases hL : btLookup (2 * j + 1) t <;> simp [hL]
    · by_cases h2 : p.1 = 2 * j + 1
      · have hd : p.1 / 2 = j := by omega
        have h2j : btLookup (2 * j) t = none :=
          btLookup_eq_none_of_lt _ t (fun q hq => by have := hp q hq; omega)
        have h2j1 : btLookup (2 * j + 1) t = none :=
          btLookup_eq_none_of_lt _ t (fun q hq => by have := hp q hq; omega)
        simp only [btLookup, if_pos h2, if_neg h1, hd, if_pos rfl, h2j, h2j1]
        simp
      · have hd : p.1 / 2 ≠ j := by omega
        simp only [btLookup, if_neg h2, if_neg h1, if_neg hd]
        cases hX : btLookup (2 * j + 1) t <;> simp [hX]

theorem insHalf_fold_length {α : Type} (l : List (Nat × α)) :
    ∀ acc, (List.foldl (fun a p => btInsert (p.1 / 2) p.2 a) acc l).length
      ≤ acc.length + l.length := by
  induction l with
  | nil => intro acc; simp
  | cons p t ih =>
    intro acc
    have h1 := ih (btInsert (p.1 / 2) p.2 acc)
    have h2 := btInsert_length (p.1 / 2) p.2 acc
    simp only [List.foldl_cons, List.length_cons]
    omega

/-- Folding plain inserts of strictly-ascending fresh keys onto a
sorted accumulator rebuilds the concatenation. -/
theorem insert_fold_rebuild {α : Type} (l : List (Nat × α)) :
    ∀ acc, SortedK (acc ++ l) →
      List.foldl (fun a p => btInsert p.1 p.2 a) acc l = acc ++ l := by
  induction l with
  | nil => intro acc h; simp
  | cons p t ih =>
    intro acc h
    have hcross : ∀ a ∈ acc, a.1 < p.1 := by
      rw [SortedK, List.pairwise_append] at h
      exact fun a ha => h.2.2 a ha p (by simp)
    simp only [List.foldl_cons]
    rw [btInsert_append_last p.1 p.2 acc hcross]
    have hs : SortedK ((acc ++ [(p.1, p.2)]) ++ t) := by
      rw [List.append_assoc]
      exact h
    rw [ih (acc ++ [(p.1, p.2)]) hs, List.append_assoc]
    rfl

/-! ## Claims C3 and C4 -/

/-- C3: `try_reduce_subdivision` fails (returning `false` and leaving
the bar unchanged) exactly when the subdivision is already 1 or the
halved subdivision is smaller than the number of occupied slots; on
success it halves the subdivision and remaps every slot key `k` to
`k / 2` with the chord from the larger original key winning a collision
(key-ascending last-write-wins: slot `j` of the result holds the chord
from original key `2j+1` if occupied, else from `2j`), and afterwards
the new subdivision is at least the number of occupied slots. -/
theorem C3_reduce_subdivision (b : Bar) (hs : SortedK b.chords) :
    ((tryReduceSubdivision b).2 = false ↔
        (b.subdivision = 1 ∨ b.subdivision / 2 < b.chords.length))
      ∧ ((tryReduceSubdivision b).2 = false → (tryReduceSubdivision b).1 = b)
      ∧ ((tryReduceSubdivision b).2 = true →
          (tryReduceSubdivision b).1.subdivision = b.subdivision / 2
            ∧ (∀ j, btLookup j (tryReduceSubdivision b).1.chords
                = ((btLookup (2 * j + 1) b.chords).or (btLookup (2 * j) b.chords)))
            ∧ (tryReduceSubdivision b).1.chords.length
                ≤ (tryReduceSubdivision b).1.subdivision) := by
  by_cases hb1 : b.subdivision = 1
  · refine ⟨?_, ?_, ?_⟩ <;> simp [tryReduceSubdivision, hb1]
  · by_cases hb2 : b.chords.length > b.subdivision / 2
    · refine ⟨?_, ?_, ?_⟩ <;> simp [tryReduceSubdivision, hb1, hb2]
    · have hlen : b.chords.length ≤ b.subdivision / 2 := by omega
      have hres : tryReduceSubdivision b
          = (⟨b.beats, b.subdivision / 2,
              List.foldl reduceStep b.chords (btKeys b.chords)⟩, true) := by
        simp [tryReduceSubdivision, hb1, hb2]
      have hloop : List.foldl reduceStep b.chords (btKeys b.chords)
          = List.foldl (fun a p => btInsert (p.1 / 2) p.2 a) [] b.chords := by
        have h1 := reduce_loop_eq b.chords [] (by simpa using hs)
        simpa using h1
      rw [hres]
      refine ⟨?_, ?_, ?_⟩
      · simp only [Bool.true_eq_false, false_iff]
        rintro (h | h)
        · exact hb1 h
        · omega
      · intro h
        exact absurd h (by simp)
      · intro _
        refine ⟨rfl, ?_, ?_⟩
        · intro j
          show btLookup j (List.foldl reduceStep b.chords (btKeys b.chords)) = _
          rw [hloop, btLookup_insHalf_fold j b.chords []]
          exact lastHalf_eq_or_lookup j b.chords hs
        · show (List.foldl reduceStep b.chords (btKeys b.chords)).length ≤ b.subdivision / 2
          rw [hloop]
          have := insHalf_fold_length b.chords ([] : List (Nat × Chord))
          simp only [List.length_nil, Nat.zero_add] at this
          omega

/-- A concrete chord used by witnesses. -/
def chordCMaj : Chord := ⟨.C, .None, .Maj, none, false, false⟩

/-- A second concrete chord used by witnesses. -/
def chordDMin : Chord := ⟨.D, .None, .Min, none, false, false⟩

/-- C3 witness: the characterization applied to a 4-subdivision bar
with chords at slots 1 and 3. -/
theorem C3_reduce_subdivision_witness :
    SortedK (Bar.mk 4 4 [(1, chordCMaj), (3, chordDMin)]).chords ∧
      ((tryReduceSubdivision ⟨4, 4, [(1, chordCMaj), (3, chordDMin)]⟩).2 = false ↔
        ((Bar.mk 4 4 [(1, chordCMaj), (3, chordDMin)]).subdivision = 1 ∨
          (Bar.mk 4 4 [(1, chordCMaj), (3, chordDMin)]).subdivision / 2
            < (Bar.mk 4 4 [(1, chordCMaj), (3, chordDMin)]).chords.length)) :=
  ⟨by decide, (C3_reduce_subdivision ⟨4, 4, [(1, chordCMaj), (3, chordDMin)]⟩ (by decide)).1⟩

/-- C4 (amended): doubling then reducing is the identity for bars whose
subdivision is strictly below 16 (so that `double_subdivision` actually
doubles) and whose occupied slot count fits in half the doubled
subdivision.  At subdivision 16 `double_subdivision` is a no-op and the
subsequent reduction halves the bar, so the law fails there (see the
counterexample). -/
theorem C4_double_then_reduce (b : Bar) (hs : SortedK b.chords)
    (hlt : b.subdivision < 16) (hfit : b.chords.length ≤ b.subdivision) :
    tryReduceSubdivision (doubleSubdivision b) = (b, true) := by
  have hsm : SortedK (b.chords.map (fun p => (p.1 * 2, p.2))) := by
    rw [SortedK, List.pairwise_map]
    exact hs.imp (by intro a b h; omega)
  have hdouble : doubleSubdivision b
      = ⟨b.beats, b.subdivision * 2, b.chords.map (fun p => (p.1 * 2, p.2))⟩ := by
    rw [doubleSubdivision, if_neg (by omega)]
    have h1 : b.chords.foldl (fun a p => btInsert (p.1 * 2) p.2 a) []
        = List.foldl (fun a p => btInsert p.1 p.2 a) []
            (b.chords.map (fun p => (p.1 * 2, p.2))) := by
      rw [List.foldl_map]
    rw [h1, insert_fold_rebuild _ [] (by simpa using hsm)]
    simp
  have hloop : List.foldl reduceStep (b.chords.map (fun p => (p.1 * 2, p.2)))
      (btKeys (b.chords.map (fun p => (p.1 * 2, p.2)))) = b.chords := by
    have h1 := reduce_loop_eq (b.chords.map (fun p => (p.1 * 2, p.2))) []
      (by simpa using hsm)
    simp only [List.nil_append] at h1
    rw [h1, List.foldl_map]
    have h2 : (fun (a : List (Nat × Chord)) (p : Nat × Chord) =>
        btInsert (p.1 * 2 / 2) p.2 a) = fun a p => btInsert p.1 p.2 a := by
      funext a p
      have : p.1 * 2 / 2 = p.1 := by omega
      rw [this]
    rw [show (fun (a : List (Nat × Chord)) (p : Nat × Chord) =>
        btInsert ((p.1 * 2, p.2).1 / 2) (p.1 * 2, p.2).2 a)
      = fun a p => btInsert p.1 p.2 a from h2]
    have h3 := insert_fold_rebuild b.chords [] (by simpa using hs)
    simpa using h3
  rw [hdouble, tryReduceSubdivision]
  rw [if_neg (show ¬ ((⟨b.beats, b.subdivision * 2,
      b.chords.map (fun p => (p.1 * 2, p.2))⟩ : Bar).subdivision = 1) from by
    simp only []
    omega)]
  rw [if_neg (show ¬ ((⟨b.beats, b.subdivision * 2,
      b.chords.map (fun p => (p.1 * 2, p.2))⟩ : Bar).chords.length
        > (⟨b.beats, b.subdivision * 2,
            b.chords.map (fun p => (p.1 * 2, p.2))⟩ : Bar).subdivision / 2) from by
    simp only [List.length_map]
    omega)]
  have hsub : b.subdivision * 2 / 2 = b.subdivision := by omega
  simp only [hsub, hloop]

/-- C4 witness: double-then-reduce applied to a 4-subdivision bar with
two occupied slots. -/
theorem C4_double_then_reduce_witness :
    SortedK (Bar.mk 4 4 [(0, chordCMaj), (3, chordDMin)]).chords ∧
      (Bar.mk 4 4 [(0, chordCMaj), (3, chordDMin)]).subdivision < 16 ∧
      (Bar.mk 4 4 [(0, chordCMaj), (3, chordDMin)]).chords.length
        ≤ (Bar.mk 4 4 [(0, chordCMaj), (3, chordDMin)]).subdivision ∧
      tryReduceSubdivision (doubleSubdivision ⟨4, 4, [(0, chordCMaj), (3, chordDMin)]⟩)
        = (⟨4, 4, [(0, chordCMaj), (3, chordDMin)]⟩, true) :=
  ⟨by decide, by decide, by decide,
    C4_double_then_reduce ⟨4, 4, [(0, chordCMaj), (3, chordDMin)]⟩
      (by decide) (by decide) (by decide)⟩

/-- C4 counterexample: at subdivision 16 `double_subdivision` is a
no-op, so reducing afterwards halves the (empty) bar to subdivision 8
instead of restoring it, even though the occupied slot count (0) does
not exceed half of the doubled subdivision. -/
theorem C4_counterexample :
    (Bar.mk 4 16 []).chords.length ≤ (doubleSubdivision ⟨4, 16, []⟩).subdivision / 2 ∧
      (tryReduceSubdivision (doubleSubdivision ⟨4, 16, []⟩)).1.subdivision = 8 ∧
      (tryReduceSubdivision (doubleSubdivision ⟨4, 16, []⟩)).1 ≠ ⟨4, 16, []⟩ := by
  refine ⟨by decide, by decide, by decide⟩

/-! ## Document model and editor state (from `struct Song/Section/State`)

Only the fields the document model and cursor operations touch are
modelled; the curses window, toast, redraw flags and bound filename of
the Rust `State` are I/O-only.  Operations return `Option State`, with
`none` modelling a panic (out-of-range `Vec` indexing or `usize`
underflow, as in a debug build). -/

structure Section where
  label : String
  bars : List Bar
  repeats : Bool
  wrap : Nat
deriving DecidableEq

structure Song where
  title : String
  sections : List Section
deriving DecidableEq

/-- Model of `Song::new()`. -/
def Song.new : Song := ⟨"untitled", [⟨"A", [Bar.default], false, 4⟩]⟩

structure CursorPos where
  sect : Nat
  bar : Nat
  subdivision : Nat
deriving DecidableEq

structure State where
  song : Song
  cursor : CursorPos
deriving DecidableEq

/-- The fixed 16-symbol label alphabet `SECTION_LABELS`. -/
def SECTION_LABELS : List String :=
  ["A", "B", "C", "D", "E", "F", "G", "H", "I", "J", "K", "L", "M", "N", "O", "P"]

/-- Label computation in `next_or_create_section`: the symbol one past
the previous label, with `?` as fallback. -/
def nextLabel (prev : String) : String :=
  ((SECTION_LABELS.findIdx? (fun x => x == prev)).map
    (fun n => (SECTION_LABELS[n + 1]?).getD "?")).getD "?"

/-- Model of `State::next_bar`. -/
def nextBar (st : State) : Option State := do
  let sec ← st.song.sections[st.cursor.sect]?
  if st.cursor.bar + 1 = sec.bars.length then
    let last ← sec.bars.getLast?
    if last.subdivision = 0 then none
    else some { st with cursor := { st.cursor with subdivision := last.subdivision - 1 } }
  else
    some { st with cursor := { st.cursor with bar := st.cursor.bar + 1 } }

/-- Model of `State::next_or_create_section`. -/
def nextOrCreateSection (st : State) : Option State :=
  if st.cursor.sect + 1 < st.song.sections.length then
    some { st with cursor := ⟨st.cursor.sect + 1, 0, 0⟩ }
  else do
    let previous ← st.song.sections.getLast?
    let lastBar ← previous.bars.getLast?
    let newSec : Section := ⟨nextLabel previous.label,
      [Bar.new lastBar.beats lastBar.subdivision], false, previous.wrap⟩
    some ⟨⟨st.song.title, st.song.sections ++ [newSec]⟩, ⟨st.cursor.sect + 1, 0, 0⟩⟩

/-- Model of `State::prev_section`: note that it sets the bar index to the
previous section's bar count (one past its last index). -/
def prevSection (st : State) : Option State :=
  if st.cursor.sect > 0 then do
    let sec ← st.song.sections[st.cursor.sect - 1]?
    some { st with cursor :=
      { st.cursor with sect := st.cursor.sect - 1, bar := sec.bars.length } }
  else some st

/-- Model of `State::prev_bar`: the final `saturating_sub(1)` runs both when the
cursor was not at bar 0 and after the `prev_section` delegation. -/
def prevBar (st : State) : Option State :=
  if st.cursor.bar = 0 ∧ st.cursor.subdivision > 0 then
    some { st with cursor := { st.cursor with subdivision := 0 } }
  else do
    let st2 ← if st.cursor.bar = 0 ∧ st.cursor.subdivision = 0 then prevSection st
              else some st
    some { st2 with cursor := { st2.cursor with bar := st2.cursor.bar - 1 } }

/-- Model of `State::next_or_create_bar`. -/
def nextOrCreateBar (st : State) : Option State := do
  let sec ← st.song.sections[st.cursor.sect]?
  if sec.bars.isEmpty then
    some ⟨⟨st.song.title,
        st.song.sections.set st.cursor.sect { sec with bars := [Bar.default] }⟩,
      ⟨st.cursor.sect, 0, 0⟩⟩
  else do
    let previous ← sec.bars.getLast?
    let newBar := Bar.new previous.beats previous.subdivision
    if sec.bars.length = st.cursor.bar + 1
        ∧ st.song.sections.length = st.cursor.sect + 1 then
      some ⟨⟨st.song.title,
          st.song.sections.set st.cursor.sect { sec with bars := sec.bars ++ [newBar] }⟩,
        ⟨st.cursor.sect, st.cursor.bar + 1, 0⟩⟩
    else if sec.bars.length = st.cursor.bar + 1 then
      nextOrCreateSection st
    else
      some { st with cursor := { st.cursor with bar := st.cursor.bar + 1, subdivision := 0 } }

/-- Model of `State::next_subdivision`. -/
def nextSubdivision (st : State) : Option State := do
  let sec ← st.song.sections[st.cursor.sect]?
  let bar ← sec.bars[st.cursor.bar]?
  if st.cursor.subdivision + 1 = bar.subdivision then
    nextOrCreateBar st
  else
    some { st with cursor := { st.cursor with subdivision := st.cursor.subdivision + 1 } }

/-- Model of `State::prev_subdivision`. -/
def prevSubdivision (st : State) : Option State := do
  if st.cursor.subdivision = 0 then do
    let st2 ← prevBar st
    let sec ← st2.song.sections[st2.cursor.sect]?
    let bar ← sec.bars[st2.cursor.bar]?
    if bar.subdivision = 0 then none
    else some { st2 with cursor := { st2.cursor with subdivision := bar.subdivision - 1 } }
  else
    some { st with cursor := { st.cursor with subdivision := st.cursor.subdivision - 1 } }

/-- Model of `State::delete_chord_or_empty_bar`.  In the section-removal branch
the Rust code reads `bars[0]` only after checking `bars.len() == 1`, so
`headD` there agrees with the code; `cursor.section -= 1` and
`beats - 1` are `usize` subtractions that panic (debug) on underflow,
hence the guards.  Note the code sets the new subdivision index from
the target bar's `beats`, not its `subdivision`. -/
def deleteChordOrEmptyBar (st : State) : Option State := do
  let sec ← st.song.sections[st.cursor.sect]?
  if sec.bars.length = 1 ∧ (sec.bars.headD Bar.default).chords = []
      ∧ st.song.sections.length > 1 then
    let sections2 := st.song.sections.eraseIdx st.cursor.sect
    if st.cursor.sect = 0 then none
    else do
      let s2 := st.cursor.sect - 1
      let sec2 ← sections2[s2]?
      if sec2.bars.length = 0 then none
      else do
        let b2 := sec2.bars.length - 1
        let bar2 ← sec2.bars[b2]?
        if bar2.beats = 0 then none
        else some ⟨⟨st.song.title, sections2⟩, ⟨s2, b2, bar2.beats - 1⟩⟩
  else do
    let bar ← sec.bars[st.cursor.bar]?
    if bar.chords = [] ∧ sec.bars.length > 1 then
      let bars2 := sec.bars.eraseIdx st.cursor.bar
      let newBar := if st.cursor.bar ≥ bars2.length then st.cursor.bar - 1 else st.cursor.bar
      some ⟨⟨st.song.title,
          st.song.sections.set st.cursor.sect { sec with bars := bars2 }⟩,
        ⟨st.cursor.sect, newBar, st.cursor.subdivision⟩⟩
    else
      let bars3 := sec.bars.set st.cursor.bar
        { bar with chords := btRemove st.cursor.subdivision bar.chords }
      some ⟨⟨st.song.title,
          st.song.sections.set st.cursor.sect { sec with bars := bars3 }⟩,
        st.cursor⟩

/-- The cursor addresses an existing slot position: section index, bar
index and subdivision index are all in range. -/
def cursorOK (st : State) : Bool :=
  match st.song.sections[st.cursor.sect]? with
  | none => false
  | some sec =>
    match sec.bars[st.cursor.bar]? with
    | none => false
    | some bar => st.cursor.subdivision < bar.subdivision

/-- Structural invariants of the document (spec section 3): every
section has at least one bar and every bar a positive subdivision. -/
def docOK (song : Song) : Prop :=
  ∀ sec ∈ song.sections, sec.bars ≠ [] ∧ ∀ bar ∈ sec.bars, 0 < bar.subdivision

/-- A valid editor state: in-range cursor and structural invariants. -/
def stateOK (st : State) : Prop := cursorOK st = true ∧ docOK st.song

instance (song : Song) : Decidable (docOK song) := by
  unfold docOK
  infer_instance

instance (st : State) : Decidable (stateOK st) := by
  unfold stateOK
  infer_instance

/-- Iterate a fallible operation; `none` anywhere aborts. -/
def iterateOpt {α : Type} (f : α → Option α) : Nat → α → Option α
  | 0, x => some x
  | n + 1, x => (f x).bind (iterateOpt f n)

/-! ## Claims C10, C7, C5 (cursor and deletion behavior) -/

/-- C10: with the cursor at bar 0 and subdivision index above 0,
`prev_bar` only resets the subdivision index to 0, leaving the section
index, bar index and document unchanged (the early-return branch). -/
theorem C10_prevBar_resets_subdivision (st : State)
    (hb : st.cursor.bar = 0) (hs : st.cursor.subdivision > 0) :
    prevBar st = some { st with cursor := { st.cursor with subdivision := 0 } } := by
  rw [prevBar, if_pos ⟨hb, hs⟩]

/-- C10 witness: `prev_bar` from cursor (0, 0, 2). -/
theorem C10_prevBar_resets_subdivision_witness :
    prevBar ⟨Song.new, ⟨0, 0, 2⟩⟩ = some ⟨Song.new, ⟨0, 0, 0⟩⟩ :=
  C10_prevBar_resets_subdivision ⟨Song.new, ⟨0, 0, 2⟩⟩ (by decide) (by decide)

/-- C7 (amended): from bar 0, subdivision 0, in a section with a
previous section, `prev_bar` moves to the previous section and sets
the bar index to that section's bar count MINUS ONE, i.e. its last bar
index: the inner `prev_section` sets it one past the end, but
`prev_bar` then applies its final `saturating_sub(1)`. -/
theorem C7_prevBar_previous_section (st : State) (s : Nat) (sec : Section)
    (hc : st.cursor = ⟨s + 1, 0, 0⟩) (hsec : st.song.sections[s]? = some sec) :
    prevBar st = some ⟨st.song, ⟨s, sec.bars.length - 1, 0⟩⟩ := by
  obtain ⟨song, cur⟩ := st
  simp only at hc hsec
  subst hc
  rw [prevBar]
  rw [if_neg (by simp)]
  show (prevSection ⟨song, ⟨s + 1, 0, 0⟩⟩).bind _ = _
  rw [prevSection, if_pos (by simp)]
  simp [hsec]

/-- C7 witness: a two-section document, one bar in the first section;
`prev_bar` from (1, 0, 0) lands on bar index 0 of section 0. -/
theorem C7_prevBar_previous_section_witness :
    prevBar ⟨⟨"untitled", [⟨"A", [Bar.new 4 4], false, 4⟩, ⟨"B", [Bar.new 4 4], false, 4⟩]⟩,
        ⟨1, 0, 0⟩⟩
      = some ⟨⟨"untitled", [⟨"A", [Bar.new 4 4], false, 4⟩, ⟨"B", [Bar.new 4 4], false, 4⟩]⟩,
        ⟨0, 0, 0⟩⟩ :=
  C7_prevBar_previous_section _ 0 ⟨"A", [Bar.new 4 4], false, 4⟩ rfl rfl

/-- C7 counterexample: in the same document the previous section's bar
count is 1, but `prev_bar` sets the bar index to 0, not 1 — the claimed
"one past its last bar index" is what `prev_section` alone does, and
`prev_bar` undoes it with its trailing `saturating_sub(1)`. -/
theorem C7_counterexample :
    ((⟨⟨"untitled", [⟨"A", [Bar.new 4 4], false, 4⟩, ⟨"B", [Bar.new 4 4], false, 4⟩]⟩,
        ⟨1, 0, 0⟩⟩ : State).song.sections[0]?).map (fun sec => sec.bars.length) = some 1 ∧
      (prevBar ⟨⟨"untitled", [⟨"A", [Bar.new 4 4], false, 4⟩, ⟨"B", [Bar.new 4 4], false, 4⟩]⟩,
        ⟨1, 0, 0⟩⟩).map (fun s2 => s2.cursor.bar) = some 0 ∧
      (0 : Nat) ≠ 1 := by
  refine ⟨by decide, by decide, by decide⟩

/-- A reachable document exhibiting the C5 cursor-invariant violation:
two sections whose bars have subdivision 1 (obtained from the default
bar by two `reduce_subdivision` calls) but the default 4 beats. -/
def stC5 : State :=
  ⟨⟨"untitled", [⟨"A", [Bar.new 4 1], false, 4⟩, ⟨"B", [Bar.new 4 1], false, 4⟩]⟩,
    ⟨1, 0, 0⟩⟩

/-- C5: evaluation of the code at the failing input.  Deleting with the
cursor on the empty single-bar section B removes the section and moves
the cursor to section A, but sets the subdivision index to
`beats - 1 = 3`, which is out of range for the bar's subdivision 1:
the cursor no longer addresses an existing slot position. -/
theorem C5_code_bug_eval :
    cursorOK stC5 = true ∧
      deleteChordOrEmptyBar stC5
        = some ⟨⟨"untitled", [⟨"A", [Bar.new 4 1], false, 4⟩]⟩, ⟨0, 0, 3⟩⟩ ∧
      (deleteChordOrEmptyBar stC5).map cursorOK = some false := by
  refine ⟨by decide, by decide, by decide⟩

/-! ## Claim C6 (deletion at the sole occupied slot) -/

theorem eraseIdx_set_same {α : Type} (l : List α) (i : Nat) (a : α) :
    (l.set i a).eraseIdx i = l.eraseIdx i := by
  induction l generalizing i with
  | nil => rfl
  | cons x t ih =>
    cases i with
    | zero => rfl
    | succ n => simp [List.set_cons_succ, List.eraseIdx_cons_succ, ih]

/-- Evaluation of `delete_chord_or_empty_bar` when the current bar has
at least one chord and the section more than one bar: only the chord
at the cursor's subdivision is removed. -/
theorem delete_at_occupied (st : State) (sec : Section) (bar : Bar)
    (hsec : st.song.sections[st.cursor.sect]? = some sec)
    (hbar : sec.bars[st.cursor.bar]? = some bar)
    (hne : bar.chords ≠ []) (hlen : sec.bars.length > 1) :
    deleteChordOrEmptyBar st
      = some ⟨⟨st.song.title, st.song.sections.set st.cursor.sect
          ⟨sec.label, sec.bars.set st.cursor.bar
            ⟨bar.beats, bar.subdivision, btRemove st.cursor.subdivision bar.chords⟩,
            sec.repeats, sec.wrap⟩⟩,
        st.cursor⟩ := by
  rw [deleteChordOrEmptyBar, hsec]
  simp only [Option.bind_eq_bind, Option.some_bind]
  rw [if_neg (by rintro ⟨h1, -, -⟩; omega)]
  rw [hbar]
  simp only [Option.bind_eq_bind, Option.some_bind]
  rw [if_neg (by rintro ⟨h1, -⟩; exact hne h1)]

/-- Evaluation of `delete_chord_or_empty_bar` when the current bar is
empty and the section has more than one bar: the bar is removed and the
bar index stepped back when it exceeds the new last index. -/
theorem delete_empty_bar (st : State) (sec : Section) (bar : Bar)
    (hsec : st.song.sections[st.cursor.sect]? = some sec)
    (hbar : sec.bars[st.cursor.bar]? = some bar)
    (hemp : bar.chords = []) (hlen : sec.bars.length > 1) :
    deleteChordOrEmptyBar st
      = some ⟨⟨st.song.title, st.song.sections.set st.cursor.sect
          ⟨sec.label, sec.bars.eraseIdx st.cursor.bar, sec.repeats, sec.wrap⟩⟩,
        ⟨st.cursor.sect,
          if (sec.bars.eraseIdx st.cursor.bar).length ≤ st.cursor.bar
            then st.cursor.bar - 1 else st.cursor.bar,
          st.cursor.subdivision⟩⟩ := by
  rw [deleteChordOrEmptyBar, hsec]
  simp only [Option.bind_eq_bind, Option.some_bind]
  rw [if_neg (by rintro ⟨h1, -, -⟩; omega)]
  rw [hbar]
  simp only [Option.bind_eq_bind, Option.some_bind]
  rw [if_pos ⟨hemp, hlen⟩]

/-- C6 (amended): with the cursor on the sole occupied slot of a bar
that is not its section's only bar, `delete_at_cursor` removes only
that chord, leaving the (now empty) bar in place; a second
`delete_at_cursor` then removes the bar entirely and, if the cursor's
bar index exceeds the new last bar index, steps it back so it is again
in range. -/
theorem C6_delete_sole_occupied (st : State) (sec : Section) (bar : Bar) (ch : Chord)
    (hsec : st.song.sections[st.cursor.sect]? = some sec)
    (hbar : sec.bars[st.cursor.bar]? = some bar)
    (hch : bar.chords = [(st.cursor.subdivision, ch)])
    (hlen : sec.bars.length > 1) :
    deleteChordOrEmptyBar st
        = some ⟨⟨st.song.title, st.song.sections.set st.cursor.sect
            ⟨sec.label, sec.bars.set st.cursor.bar
              ⟨bar.beats, bar.subdivision, []⟩, sec.repeats, sec.wrap⟩⟩,
          st.cursor⟩
      ∧ (deleteChordOrEmptyBar st).bind deleteChordOrEmptyBar
        = some ⟨⟨st.song.title, st.song.sections.set st.cursor.sect
            ⟨sec.label, sec.bars.eraseIdx st.cursor.bar, sec.repeats, sec.wrap⟩⟩,
          ⟨st.cursor.sect,
            if sec.bars.length - 1 ≤ st.cursor.bar then st.cursor.bar - 1
              else st.cursor.bar,
            st.cursor.subdivision⟩⟩
      ∧ (if sec.bars.length - 1 ≤ st.cursor.bar then st.cursor.bar - 1
          else st.cursor.bar) < sec.bars.length - 1 := by
  have hcs : st.cursor.sect < st.song.sections.length := (List.getElem?_eq_some.mp hsec).1
  have hcb : st.cursor.bar < sec.bars.length := (List.getElem?_eq_some.mp hbar).1
  have h1 : deleteChordOrEmptyBar st
      = some ⟨⟨st.song.title, st.song.sections.set st.cursor.sect
          ⟨sec.label, sec.bars.set st.cursor.bar
            ⟨bar.beats, bar.subdivision, []⟩, sec.repeats, sec.wrap⟩⟩,
        st.cursor⟩ := by
    rw [delete_at_occupied st sec bar hsec hbar (by rw [hch]; simp) hlen, hch]
    simp [btRemove]
  refine ⟨h1, ?_, ?_⟩
  · rw [h1]
    simp only [Option.some_bind]
    have h2 := delete_empty_bar
      ⟨⟨st.song.title, st.song.sections.set st.cursor.sect
          ⟨sec.label, sec.bars.set st.cursor.bar
            ⟨bar.beats, bar.subdivision, []⟩, sec.repeats, sec.wrap⟩⟩,
        st.cursor⟩
      ⟨sec.label, sec.bars.set st.cursor.bar
        ⟨bar.beats, bar.subdivision, []⟩, sec.repeats, sec.wrap⟩
      ⟨bar.beats, bar.subdivision, []⟩
      (List.getElem?_set_eq_of_lt _ hcs)
      (List.getElem?_set_eq_of_lt _ hcb)
      rfl
      (by simpa using hlen)
    rw [h2]
    have hlen2 : ((sec.bars.set st.cursor.bar
        ⟨bar.beats, bar.subdivision, []⟩).eraseIdx st.cursor.bar).length
          = sec.bars.length - 1 := by
      rw [eraseIdx_set_same, List.length_eraseIdx]
      simp [hcb]
    rw [hlen2, eraseIdx_set_same, List.set_set]
  · have hlen2 : (sec.bars.eraseIdx st.cursor.bar).length = sec.bars.length - 1 := by
      rw [List.length_eraseIdx]
      simp [hcb]
    by_cases h : sec.bars.length - 1 ≤ st.cursor.bar
    · rw [if_pos h]
      omega
    · rw [if_neg h]
      omega

/-- C6 witness: a section with two 4-subdivision bars, a single chord
at slot 0 of bar 0, cursor there; the first delete empties the bar,
the second removes it and clamps the bar index to 0. -/
theorem C6_delete_sole_occupied_witness :
    deleteChordOrEmptyBar
        ⟨⟨"untitled", [⟨"A", [⟨4, 4, [(0, chordCMaj)]⟩, Bar.new 4 4], false, 4⟩]⟩, ⟨0, 0, 0⟩⟩
        = some ⟨⟨"untitled",
            [⟨"A", [⟨4, 4, []⟩, Bar.new 4 4], false, 4⟩]⟩, ⟨0, 0, 0⟩⟩
      ∧ (deleteChordOrEmptyBar
          ⟨⟨"untitled", [⟨"A", [⟨4, 4, [(0, chordCMaj)]⟩, Bar.new 4 4], false, 4⟩]⟩,
            ⟨0, 0, 0⟩⟩).bind deleteChordOrEmptyBar
        = some ⟨⟨"untitled", [⟨"A", [Bar.new 4 4], false, 4⟩]⟩, ⟨0, 0, 0⟩⟩
      ∧ (0 : Nat) < 1 := by
  have h := C6_delete_sole_occupied
    ⟨⟨"untitled", [⟨"A", [⟨4, 4, [(0, chordCMaj)]⟩, Bar.new 4 4], false, 4⟩]⟩, ⟨0, 0, 0⟩⟩
    ⟨"A", [⟨4, 4, [(0, chordCMaj)]⟩, Bar.new 4 4], false, 4⟩
    ⟨4, 4, [(0, chordCMaj)]⟩ chordCMaj rfl rfl rfl (by decide)
  refine ⟨?_, ?_, by decide⟩
  · rw [h.1]
    rfl
  · rw [h.2.1]
    rfl

/-- C6 counterexample: in that same document, the claim says the single
delete removes the bar (bar count 1), but the code only removes the
chord and keeps both bars. -/
theorem C6_counterexample :
    (deleteChordOrEmptyBar
        ⟨⟨"untitled", [⟨"A", [⟨4, 4, [(0, chordCMaj)]⟩, Bar.new 4 4], false, 4⟩]⟩,
          ⟨0, 0, 0⟩⟩).map
        (fun s2 => (s2.song.sections[0]?).map (fun sec => sec.bars.length))
      = some (some 2) ∧ (2 : Nat) ≠ 1 := by
  refine ⟨by decide, by decide⟩

/-! ## Claim C9 (navigation totality and document growth) -/

theorem cursorOK_spec (st : State) (h : cursorOK st = true) :
    ∃ sec bar, st.song.sections[st.cursor.sect]? = some sec
      ∧ sec.bars[st.cursor.bar]? = some bar
      ∧ st.cursor.subdivision < bar.subdivision := by
  cases hsec : st.song.sections[st.cursor.sect]? with
  | none => simp [cursorOK, hsec] at h
  | some sec =>
    cases hbar : sec.bars[st.cursor.bar]? with
    | none => simp [cursorOK, hsec, hbar] at h
    | some bar =>
      simp only [cursorOK, hsec, hbar, decide_eq_true_eq] at h
      exact ⟨sec, bar, rfl, hbar, h⟩

theorem nextBar_total (st : State) (h : stateOK st) : (nextBar st).isSome := by
  obtain ⟨hcur, hdoc⟩ := h
  obtain ⟨sec, bar, hsec, hbar, hsub⟩ := cursorOK_spec st hcur
  obtain ⟨hne, hpos⟩ := hdoc sec (List.getElem?_mem hsec)
  rw [nextBar, hsec]
  simp only [Option.bind_eq_bind, Option.some_bind]
  by_cases hb : st.cursor.bar + 1 = sec.bars.length
  · rw [if_pos hb]
    obtain ⟨last, hlast⟩ := Option.isSome_iff_exists.mp (List.getLast?_isSome.mpr hne)
    rw [hlast]
    simp only [Option.some_bind]
    rw [if_neg (by have := hpos last (List.mem_of_mem_getLast? hlast); omega)]
    simp
  · rw [if_neg hb]
    simp

theorem prevSection_total (st : State) (h : stateOK st) : (prevSection st).isSome := by
  obtain ⟨hcur, hdoc⟩ := h
  obtain ⟨sec, bar, hsec, hbar, hsub⟩ := cursorOK_spec st hcur
  have hlt : st.cursor.sect < st.song.sections.length := (List.getElem?_eq_some.mp hsec).1
  rw [prevSection]
  by_cases hs : st.cursor.sect > 0
  · rw [if_pos hs]
    have hlt2 : st.cursor.sect - 1 < st.song.sections.length := by omega
    rw [List.getElem?_eq_getElem hlt2]
    simp
  · rw [if_neg hs]
    simp

theorem prevBar_total (st : State) (h : stateOK st) : (prevBar st).isSome := by
  rw [prevBar]
  by_cases h1 : st.cursor.bar = 0 ∧ st.cursor.subdivision > 0
  · rw [if_pos h1]
    simp
  · rw [if_neg h1]
    by_cases h2 : st.cursor.bar = 0 ∧ st.cursor.subdivision = 0
    · rw [if_pos h2]
      obtain ⟨st2, hst2⟩ := Option.isSome_iff_exists.mp (prevSection_total st h)
      simp only [Option.bind_eq_bind, hst2, Option.some_bind]
      simp
    · rw [if_neg h2]
      simp

theorem nextOrCreateSection_total (st : State) (h : stateOK st) :
    (nextOrCreateSection st).isSome := by
  obtain ⟨hcur, hdoc⟩ := h
  obtain ⟨sec, bar, hsec, hbar, hsub⟩ := cursorOK_spec st hcur
  rw [nextOrCreateSection]
  by_cases h1 : st.cursor.sect + 1 < st.song.sections.length
  · rw [if_pos h1]
    simp
  · rw [if_neg h1]
    have hne : st.song.sections ≠ [] := by
      intro he
      rw [he] at hsec
      simp at hsec
    obtain ⟨lastSec, hlast⟩ := Option.isSome_iff_exists.mp (List.getLast?_isSome.mpr hne)
    rw [hlast]
    simp only [Option.bind_eq_bind, Option.some_bind]
    obtain ⟨hbne, -⟩ := hdoc lastSec (List.mem_of_mem_getLast? hlast)
    obtain ⟨lastBar, hlb⟩ := Option.isSome_iff_exists.mp (List.getLast?_isSome.mpr hbne)
    rw [hlb]
    simp

theorem nextOrCreateBar_total (st : State) (h : stateOK st) :
    (nextOrCreateBar st).isSome := by
  obtain ⟨sec, bar, hsec, hbar, hsub⟩ := cursorOK_spec st h.1
  rw [nextOrCreateBar, hsec]
  simp only [Option.bind_eq_bind, Option.some_bind]
  by_cases hE : sec.bars.isEmpty
  · rw [if_pos hE]
    simp
  · rw [if_neg hE]
    have hne : sec.bars ≠ [] := by
      intro he
      rw [he] at hE
      simp at hE
    obtain ⟨last, hlast⟩ := Option.isSome_iff_exists.mp (List.getLast?_isSome.mpr hne)
    rw [hlast]
    simp only [Option.some_bind]
    by_cases h1 : sec.bars.length = st.cursor.bar + 1
        ∧ st.song.sections.length = st.cursor.sect + 1
    · rw [if_pos h1]
      simp
    · rw [if_neg h1]
      by_cases h2 : sec.bars.length = st.cursor.bar + 1
      · rw [if_pos h2]
        exact nextOrCreateSection_total st h
      · rw [if_neg h2]
        simp

theorem nextSubdivision_total (st : State) (h : stateOK st) :
    (nextSubdivision st).isSome := by
  obtain ⟨sec, bar, hsec, hbar, hsub⟩ := cursorOK_spec st h.1
  rw [nextSubdivision, hsec]
  simp only [Option.bind_eq_bind, Option.some_bind]
  rw [hbar]
  simp only [Option.some_bind]
  by_cases h1 : st.cursor.subdivision + 1 = bar.subdivision
  · rw [if_pos h1]
    exact nextOrCreateBar_total st h
  · rw [if_neg h1]
    simp

/-- After `prev_bar` on a valid state the document is unchanged and the
cursor's section and bar indices are in range (with the landed bar's
subdivision positive), even though the subdivision index may not be. -/
theorem prevBar_spec (st : State) (h : stateOK st) :
    ∃ st2, prevBar st = some st2 ∧ st2.song = st.song
      ∧ ∃ sec2 bar2, st2.song.sections[st2.cursor.sect]? = some sec2
          ∧ sec2.bars[st2.cursor.bar]? = some bar2 ∧ 0 < bar2.subdivision := by
  obtain ⟨hcur, hdoc⟩ := h
  obtain ⟨sec, bar, hsec, hbar, hsub⟩ := cursorOK_spec st hcur
  have hlt : st.cursor.sect < st.song.sections.length := (List.getElem?_eq_some.mp hsec).1
  rw [prevBar]
  by_cases h1 : st.cursor.bar = 0 ∧ st.cursor.subdivision > 0
  · rw [if_pos h1]
    refine ⟨_, rfl, rfl, sec, bar, ?_, ?_, ?_⟩
    · show st.song.sections[st.cursor.sect]? = some sec
      exact hsec
    · show sec.bars[st.cursor.bar]? = some bar
      exact hbar
    · exact hdoc sec (List.getElem?_mem hsec) |>.2 bar (List.getElem?_mem hbar)
  · rw [if_neg h1]
    by_cases h2 : st.cursor.bar = 0 ∧ st.cursor.subdivision = 0
    · rw [if_pos h2]
      rw [prevSection]
      by_cases hs : st.cursor.sect > 0
      · rw [if_pos hs]
        have hlt2 : st.cursor.sect - 1 < st.song.sections.length := by omega
        rw [List.getElem?_eq_getElem hlt2]
        simp only [Option.bind_eq_bind, Option.some_bind]
        set sec2 := st.song.sections[st.cursor.sect - 1] with hsec2
        obtain ⟨hbne, hbpos⟩ := hdoc sec2 (List.getElem_mem hlt2)
        have hblen : 0 < sec2.bars.length := List.length_pos.mpr hbne
        have hblt : sec2.bars.length - 1 < sec2.bars.length := by omega
        refine ⟨_, rfl, rfl, sec2, sec2.bars[sec2.bars.length - 1], ?_, ?_, ?_⟩
        · show st.song.sections[st.cursor.sect - 1]? = some sec2
          exact List.getElem?_eq_getElem hlt2
        · show sec2.bars[sec2.bars.length - 1]? = some _
          exact List.getElem?_eq_getElem hblt
        · exact hbpos _ (List.getElem_mem hblt)
      · rw [if_neg hs]
        simp only [Option.bind_eq_bind, Option.some_bind]
        refine ⟨_, rfl, rfl, sec, bar, ?_, ?_, ?_⟩
        · show st.song.sections[st.cursor.sect]? = some sec
          exact hsec
        · show sec.bars[st.cursor.bar - 1]? = some bar
          rw [h2.1]
          rw [h2.1] at hbar
          exact hbar
        · exact hdoc sec (List.getElem?_mem hsec) |>.2 bar (List.getElem?_mem hbar)
    · rw [if_neg h2]
      simp only [Option.bind_eq_bind, Option.some_bind]
      have hb0 : st.cursor.bar ≠ 0 := by
        rcases Nat.eq_zero_or_pos st.cursor.subdivision with hz | hp
        · exact fun hb => h2 ⟨hb, hz⟩
        · exact fun hb => h1 ⟨hb, hp⟩
      have hblt : st.cursor.bar < sec.bars.length := (List.getElem?_eq_some.mp hbar).1
      have hblt2 : st.cursor.bar - 1 < sec.bars.length := by omega
      refine ⟨_, rfl, rfl, sec, sec.bars[st.cursor.bar - 1], ?_, ?_, ?_⟩
      · show st.song.sections[st.cursor.sect]? = some sec
        exact hsec
      · show sec.bars[st.cursor.bar - 1]? = some _
        exact List.getElem?_eq_getElem hblt2
      · exact hdoc sec (List.getElem?_mem hsec) |>.2 _ (List.getElem_mem hblt2)

theorem prevSubdivision_total (st : State) (h : stateOK st) :
    (prevSubdivision st).isSome := by
  rw [prevSubdivision]
  by_cases h0 : st.cursor.subdivision = 0
  · rw [if_pos h0]
    obtain ⟨st2, hst2, hsong, sec2, bar2, hsec2, hbar2, hpos⟩ := prevBar_spec st h
    rw [hst2]
    simp only [Option.bind_eq_bind, Option.some_bind]
    rw [hsec2]
    simp only [Option.some_bind]
    rw [hbar2]
    simp only [Option.some_bind]
    rw [if_neg (by omega)]
    simp
  · rw [if_neg h0]
    simp

/-- Repeated `next_subdivision` in a single-section single-bar document
walks to the end of the bar and then appends a new bar cloned from it,
never indexing out of bounds. -/
theorem nextSubdivision_growth (title label : String) (rep : Bool) (wrap : Nat) (b : Bar) :
    ∀ d m, m < b.subdivision → b.subdivision - m = d + 1 →
      iterateOpt nextSubdivision (d + 1)
          ⟨⟨title, [⟨label, [b], rep, wrap⟩]⟩, ⟨0, 0, m⟩⟩
        = some ⟨⟨title, [⟨label, [b, Bar.new b.beats b.subdivision], rep, wrap⟩]⟩,
            ⟨0, 1, 0⟩⟩ := by
  have hns : ∀ m : Nat, nextSubdivision ⟨⟨title, [⟨label, [b], rep, wrap⟩]⟩, ⟨0, 0, m⟩⟩
      = if m + 1 = b.subdivision
          then nextOrCreateBar ⟨⟨title, [⟨label, [b], rep, wrap⟩]⟩, ⟨0, 0, m⟩⟩
          else some ⟨⟨title, [⟨label, [b], rep, wrap⟩]⟩, ⟨0, 0, m + 1⟩⟩ :=
    fun m => rfl
  have hnoc : ∀ m : Nat, nextOrCreateBar ⟨⟨title, [⟨label, [b], rep, wrap⟩]⟩, ⟨0, 0, m⟩⟩
      = some ⟨⟨title, [⟨label, [b, Bar.new b.beats b.subdivision], rep, wrap⟩]⟩,
          ⟨0, 1, 0⟩⟩ :=
    fun m => rfl
  intro d
  induction d with
  | zero =>
    intro m hm hd
    have hm1 : m + 1 = b.subdivision := by omega
    show (nextSubdivision _).bind _ = _
    rw [hns, if_pos hm1, hnoc]
    rfl
  | succ n ih =>
    intro m hm hd
    have hne : ¬ (m + 1 = b.subdivision) := by omega
    show (nextSubdivision _).bind _ = _
    rw [hns, if_neg hne]
    show iterateOpt nextSubdivision (n + 1)
        ⟨⟨title, [⟨label, [b], rep, wrap⟩]⟩, ⟨0, 0, m + 1⟩⟩ = _
    exact ih (m + 1) (by omega) (by omega)

/-- C9: all navigation operations are total on a valid non-empty
document (no out-of-bounds indexing or underflow panics), and in a
single-section single-bar document with one occupied slot, repeatedly
calling `next_subdivision` from any valid cursor appends a new bar
(cloned from the existing one) within `subdivision - k ≤ subdivision`
calls, landing on the new bar. -/
theorem C9_navigation_total_and_growth :
    (∀ st : State, stateOK st →
        (nextBar st).isSome ∧ (prevBar st).isSome ∧ (nextSubdivision st).isSome
          ∧ (prevSubdivision st).isSome ∧ (nextOrCreateBar st).isSome
          ∧ (nextOrCreateSection st).isSome ∧ (prevSection st).isSome)
      ∧ (∀ (title label : String) (rep : Bool) (wrap : Nat) (b : Bar) (j : Nat) (ch : Chord)
          (k : Nat), b.chords = [(j, ch)] → k < b.subdivision →
            0 < b.subdivision - k ∧ b.subdivision - k ≤ b.subdivision
              ∧ iterateOpt nextSubdivision (b.subdivision - k)
                  ⟨⟨title, [⟨label, [b], rep, wrap⟩]⟩, ⟨0, 0, k⟩⟩
                = some ⟨⟨title, [⟨label, [b, Bar.new b.beats b.subdivision], rep, wrap⟩]⟩,
                    ⟨0, 1, 0⟩⟩) := by
  constructor
  · intro st h
    exact ⟨nextBar_total st h, prevBar_total st h, nextSubdivision_total st h,
      prevSubdivision_total st h, nextOrCreateBar_total st h,
      nextOrCreateSection_total st h, prevSection_total st h⟩
  · intro title label rep wrap b j ch k hch hk
    refine ⟨by omega, by omega, ?_⟩
    obtain ⟨d, hd⟩ : ∃ d, b.subdivision - k = d + 1 := ⟨b.subdivision - k - 1, by omega⟩
    rw [hd]
    exact nextSubdivision_growth title label rep wrap b d k hk hd

/-- C9 witness: totality applied to a concrete valid document, and
three `next_subdivision` calls from cursor (0, 0, 1) in a one-bar
4-subdivision document appending the second bar. -/
theorem C9_navigation_witness :
    stateOK ⟨⟨"untitled", [⟨"A", [⟨4, 4, [(0, chordCMaj)]⟩], false, 4⟩]⟩, ⟨0, 0, 1⟩⟩
      ∧ (prevSubdivision ⟨⟨"untitled", [⟨"A", [⟨4, 4, [(0, chordCMaj)]⟩], false, 4⟩]⟩,
          ⟨0, 0, 1⟩⟩).isSome
      ∧ (Bar.mk 4 4 [(0, chordCMaj)]).chords = [(0, chordCMaj)]
      ∧ 1 < (Bar.mk 4 4 [(0, chordCMaj)]).subdivision
      ∧ iterateOpt nextSubdivision ((Bar.mk 4 4 [(0, chordCMaj)]).subdivision - 1)
          ⟨⟨"untitled", [⟨"A", [⟨4, 4, [(0, chordCMaj)]⟩], false, 4⟩]⟩, ⟨0, 0, 1⟩⟩
        = some ⟨⟨"untitled", [⟨"A", [⟨4, 4, [(0, chordCMaj)]⟩, Bar.new 4 4], false, 4⟩]⟩,
            ⟨0, 1, 0⟩⟩ := by
  refine ⟨by decide, ?_, by decide, by decide, ?_⟩
  · exact (C9_navigation_total_and_growth.1 _ (by decide)).2.2.2.1
  · exact (C9_navigation_total_and_growth.2 "untitled" "A" false 4
      ⟨4, 4, [(0, chordCMaj)]⟩ 0 chordCMaj 1 rfl (by decide)).2.2

/-! ## Claim C8 (`State::calc_widths`)

The Rust loop walks the bars in order, updating `widths[i % wrap]`
in place for every subdivision of every bar (`get_chord` is the map
lookup).  `innerFold` is the inner `for subdivision in 0..` loop over
one bar; `calcWidths` is the outer loop starting from `vec![0; wrap]`.
(When `wrap = 0` the Rust `%` would panic; the claim only concerns
`c < wrap`.) -/

/-- Width of `format!("{} ", chord)` in characters. -/
def chordDisplayWidth (c : Chord) : Nat := (formatChord c).length + 1

/-- The inner loop body of `calc_widths` over slot indices `ss`. -/
def innerFold (bar : Bar) (idx : Nat) (ss : List Nat) (w : List Nat) : List Nat :=
  ss.foldl
    (fun w s =>
      match btLookup s bar.chords with
      | some chord => w.set idx (max (chordDisplayWidth chord) (w.getD idx 0))
      | none => w.set idx (max 2 (w.getD idx 0)))
    w

/-- One outer-loop iteration of `calc_widths` for bar number `i`. -/
def barWidthStep (wrap : Nat) (w : List Nat) (i : Nat) (bar : Bar) : List Nat :=
  innerFold bar (i % wrap) (List.range bar.subdivision) w

/-- Model of `State::calc_widths`. -/
def calcWidths (sec : Section) : List Nat :=
  sec.bars.enum.foldl (fun w p => barWidthStep sec.wrap w p.1 p.2)
    (List.replicate sec.wrap 0)

/-- Declarative slot width from the claim: formatted width + 1 if the
slot is occupied, else the minimum width 2. -/
def slotWidth (bar : Bar) (s : Nat) : Nat :=
  match btLookup s bar.chords with
  | some chord => (formatChord chord).length + 1
  | none => 2

/-- All slot widths contributed to wrap-column `c` by the enumerated
bars whose index is congruent to `c` modulo `wrap`. -/
def colSlotWidths (wrap c : Nat) (l : List (Nat × Bar)) : List Nat :=
  (l.filter (fun p => p.1 % wrap == c)).flatMap
    (fun p => (List.range p.2.subdivision).map (slotWidth p.2))

def listMax (l : List Nat) : Nat := l.foldl max 0

theorem innerFold_length (bar : Bar) (idx : Nat) :
    ∀ (ss : List Nat) (w : List Nat), (innerFold bar idx ss w).length = w.length := by
  intro ss
  induction ss with
  | nil => intro w; rfl
  | cons s t ih =>
    intro w
    rw [innerFold, List.foldl_cons]
    cases h : btLookup s bar.chords <;>
      · simp only [h]
        rw [show ∀ w2, List.foldl _ w2 t = innerFold bar idx t w2 from fun w2 => rfl,
          ih, List.length_set]

theorem innerFold_getD_ne (bar : Bar) (idx j : Nat) (hne : idx ≠ j) :
    ∀ (ss : List Nat) (w : List Nat),
      (innerFold bar idx ss w).getD j 0 = w.getD j 0 := by
  intro ss
  induction ss with
  | nil => intro w; rfl
  | cons s t ih =>
    intro w
    rw [innerFold, List.foldl_cons]
    cases h : btLookup s bar.chords <;>
      · simp only [h]
        rw [show ∀ w2, List.foldl _ w2 t = innerFold bar idx t w2 from fun w2 => rfl, ih,
          List.getD_eq_getElem?_getD, List.getElem?_set_ne hne,
          ← List.getD_eq_getElem?_getD]

theorem innerFold_getD_idx (bar : Bar) (idx : Nat) :
    ∀ (ss : List Nat) (w : List Nat), idx < w.length →
      (innerFold bar idx ss w).getD idx 0
        = ss.foldl (fun acc s => max (slotWidth bar s) acc) (w.getD idx 0) := by
  intro ss
  induction ss with
  | nil => intro w hlt; rfl
  | cons s t ih =>
    intro w hlt
    rw [innerFold, List.foldl_cons, List.foldl_cons]
    cases h : btLookup s bar.chords with
    | none =>
      simp only [h, slotWidth]
      rw [show ∀ w2, List.foldl _ w2 t = innerFold bar idx t w2 from fun w2 => rfl,
        ih _ (by rw [List.length_set]; exact hlt),
        List.getD_eq_getElem?_getD, List.getElem?_set_eq_of_lt _ hlt]
      rfl
    | some chord =>
      simp only [h, slotWidth]
      rw [show ∀ w2, List.foldl _ w2 t = innerFold bar idx t w2 from fun w2 => rfl,
        ih _ (by rw [List.length_set]; exact hlt),
        List.getD_eq_getElem?_getD, List.getElem?_set_eq_of_lt _ hlt]
      rfl

theorem colSlotWidths_cons_pos (wrap c : Nat) (p : Nat × Bar) (t : List (Nat × Bar))
    (h : (p.1 % wrap == c) = true) :
    colSlotWidths wrap c (p :: t)
      = ((List.range p.2.subdivision).map (slotWidth p.2)) ++ colSlotWidths wrap c t := by
  rw [colSlotWidths, List.filter_cons, if_pos h, List.flatMap_cons]
  rfl

theorem colSlotWidths_cons_neg (wrap c : Nat) (p : Nat × Bar) (t : List (Nat × Bar))
    (h : (p.1 % wrap == c) = false) :
    colSlotWidths wrap c (p :: t) = colSlotWidths wrap c t := by
  rw [colSlotWidths, List.filter_cons, if_neg (by simp [h])]
  rfl

theorem outerFold_getD (wrap c : Nat) (hc : c < wrap) :
    ∀ (l : List (Nat × Bar)) (w : List Nat), w.length = wrap →
      (l.foldl (fun w p => barWidthStep wrap w p.1 p.2) w).getD c 0
        = (colSlotWidths wrap c l).foldl (fun acc v => max v acc) (w.getD c 0) := by
  intro l
  induction l with
  | nil => intro w hw; rfl
  | cons p t ih =>
    intro w hw
    rw [List.foldl_cons]
    have hw2 : (barWidthStep wrap w p.1 p.2).length = w.length := innerFold_length _ _ _ _
    by_cases hx : p.1 % wrap = c
    · have hxb : (p.1 % wrap == c) = true := by simp [hx]
      rw [ih _ (by rw [hw2, hw])]
      rw [colSlotWidths_cons_pos wrap c p t hxb, List.foldl_append]
      congr 1
      rw [List.foldl_map]
      rw [barWidthStep, hx]
      exact innerFold_getD_idx p.2 c _ w (by rw [hw]; exact hc)
    · have hxb : (p.1 % wrap == c) = false := by simp [hx]
      rw [ih _ (by rw [hw2, hw])]
      rw [colSlotWidths_cons_neg wrap c p t hxb]
      congr 1
      rw [barWidthStep]
      exact innerFold_getD_ne p.2 (p.1 % wrap) c hx _ w

/-- C8: for every section and column index `c < wrap`, the computed
column width is the maximum, over all subdivisions of all bars whose
bar index is congruent to `c` modulo `wrap`, of the formatted chord's
character count plus one for occupied slots and the minimum width 2
for unoccupied ones. -/
theorem C8_column_widths (sec : Section) (c : Nat) (hc : c < sec.wrap) :
    (calcWidths sec).getD c 0 = listMax (colSlotWidths sec.wrap c sec.bars.enum) := by
  rw [calcWidths,
    outerFold_getD sec.wrap c hc sec.bars.enum _ (List.length_replicate _ _)]
  have hz : (List.replicate sec.wrap (0 : Nat)).getD c 0 = 0 := by
    simp [List.getD_eq_getElem?_getD]
  rw [hz, listMax]
  have hfun : (fun (acc v : Nat) => max v acc) = fun acc v => max acc v := by
    funext a v
    exact Nat.max_comm v a
  rw [hfun]

/-- C8 witness: a wrap-2 section whose column 0 holds a 2-subdivision
bar with one chord and a 1-subdivision bar with a minor chord; the
column width is the widest formatted chord plus its trailing space. -/
theorem C8_column_widths_witness :
    (0 : Nat) < (Section.mk "A" [⟨4, 2, [(0, chordCMaj)]⟩, Bar.new 4 1,
        ⟨4, 1, [(0, chordDMin)]⟩] false 2).wrap
      ∧ (calcWidths ⟨"A", [⟨4, 2, [(0, chordCMaj)]⟩, Bar.new 4 1,
          ⟨4, 1, [(0, chordDMin)]⟩], false, 2⟩).getD 0 0
        = listMax (colSlotWidths 2 0
            ([⟨4, 2, [(0, chordCMaj)]⟩, Bar.new 4 1,
              (⟨4, 1, [(0, chordDMin)]⟩ : Bar)] : List Bar).enum) :=
  ⟨by decide, C8_column_widths ⟨"A", [⟨4, 2, [(0, chordCMaj)]⟩, Bar.new 4 1,
    ⟨4, 1, [(0, chordDMin)]⟩], false, 2⟩ 0 (by decide)⟩
